import Mathlib

/-!
Verification development for the `trajectory_planning_helpers` module
(`spline_approximation.py` and `calc_ax_profile.py`).

Numpy float arrays are modelled as `List ℝ`; the external scipy
collaborators (`splprep`, `splev`, `fmin`) are modelled as fixed functions
gathered in a `SplineLib` structure, exactly as the specification treats
them (opaque collaborators specified only at their interface).
-/

set_option maxHeartbeats 1000000
set_option linter.unusedVariables false

namespace TPH

noncomputable section

/-- One row of a track array: `[x, y, w_tr_right, w_tr_left]`. -/
structure TrackPoint where
  x : ℝ
  y : ℝ
  w_tr_right : ℝ
  w_tr_left : ℝ
deriving Inhabited

/-- Source `calc_ax_profile` from `calc_ax_profile.py`.
The input-shape check (`raise ValueError`) is modelled by `none`.
`ax_profile[:-1] = (vx[1:]**2 - vx[:-1]**2) / (2 * el_lengths)` is modelled
by elementwise `zipWith` over the shifted and unshifted lists. -/
def calc_ax_profile (vx_profile : List ℝ) (el_lengths : List ℝ)
    (eq_length_output : Bool) : Option (List ℝ) :=
  if vx_profile.length ≠ el_lengths.length + 1 then
    none
  else
    let sq_diffs := List.zipWith (fun a b => a ^ 2 - b ^ 2) (vx_profile.drop 1) vx_profile
    let ax := List.zipWith (fun d l => d / (2 * l)) sq_diffs el_lengths
    if eq_length_output then some (ax ++ [0]) else some ax

/-- Euclidean distance between two 2D points, as computed by
`np.sqrt(np.sum(np.power(np.diff(...), 2)))` on one row / by
`scipy.spatial.distance.euclidean`. -/
def euclDist (p q : ℝ × ℝ) : ℝ :=
  Real.sqrt ((q.1 - p.1) ^ 2 + (q.2 - p.2) ^ 2)

/-- The `[:2]` slice of a track row: its 2D position. -/
def posXY (p : TrackPoint) : ℝ × ℝ := (p.x, p.y)

/-- Source `track_cl = np.vstack((track, track[0]))` (line 40). -/
def track_cl (track : List TrackPoint) : List TrackPoint :=
  track ++ track.take 1

/-- Source `el_lengths_cl = np.sqrt(np.sum(np.power(np.diff(track_cl[:, :2], axis=0), 2), axis=1))`
(line 44): Euclidean length of each consecutive segment of the closed track. -/
def el_lengths_cl (tcl : List TrackPoint) : List ℝ :=
  List.zipWith (fun p q => euclDist (posXY p) (posXY q)) tcl (tcl.drop 1)

/-- Source `dists_cum_cl = np.insert(np.cumsum(el_lengths_cl), 0, 0.0)` (lines 47-48):
left-fold partial sums prefixed with 0. -/
def dists_cum_cl (tcl : List TrackPoint) : List ℝ :=
  List.scanl (· + ·) 0 (el_lengths_cl tcl)

/-- Source `dists_cum_cl[-1]`: the total perimeter of the closed track. -/
def total_dist_cl (tcl : List TrackPoint) : ℝ :=
  (dists_cum_cl tcl).getLastD 0

/-- Source `np.linspace(a, b, n)`: `n` evenly spaced samples from `a` to `b`,
endpoints included (`n = 1` gives `[a]`, via `x / 0 = 0`). -/
def linspace (a b : ℝ) (n : ℕ) : List ℝ :=
  (List.range n).map fun i : ℕ => a + (b - a) * (i : ℝ) / ((n : ℝ) - 1)

/-- Source `no_points_interp_cl = int(np.ceil(dists_cum_cl[-1] / stepsize_prep)) + 1` (line 51). -/
def no_points_interp_cl (tcl : List TrackPoint) (stepsize_prep : ℝ) : ℕ :=
  (⌈total_dist_cl tcl / stepsize_prep⌉).toNat + 1

/-- Source `dists_interp_cl = np.linspace(0.0, dists_cum_cl[-1], no_points_interp_cl)` (line 52). -/
def dists_interp_cl (tcl : List TrackPoint) (stepsize_prep : ℝ) : List ℝ :=
  linspace 0 (total_dist_cl tcl) (no_points_interp_cl tcl stepsize_prep)

/-- Interval walk of `np.interp` over the zipped `(xp, fp)` pairs, assuming
the query `x` is `≥` the first abscissa: find the last index `j` with
`xp[j] ≤ x`; if `j` is the final index return `fp[j]`, else interpolate
linearly between `j` and `j + 1`. -/
def np_interp_go (x : ℝ) : List (ℝ × ℝ) → ℝ
  | [] => 0
  | [(_, f0)] => f0
  | (x0, f0) :: (x1, f1) :: rest =>
    if x < x1 then f0 + (f1 - f0) * (x - x0) / (x1 - x0)
    else np_interp_go x ((x1, f1) :: rest)

/-- Source `np.interp(x, xp, fp)`: piecewise-linear interpolation with clamping to
`fp[0]` below `xp[0]` and to `fp[-1]` at or above `xp[-1]`. -/
def np_interp (x : ℝ) (xp fp : List ℝ) : ℝ :=
  match xp, fp with
  | x0 :: xs, f0 :: fs => if x < x0 then f0 else np_interp_go x (List.zip (x0 :: xs) (f0 :: fs))
  | _, _ => 0

/-- Source `track_interp_cl` (lines 55-59): each of the four channels interpolated
independently against the cumulative distances of the closed track, at the
evenly spaced target distances. -/
def track_interp_cl (tcl : List TrackPoint) (stepsize_prep : ℝ) : List TrackPoint :=
  (dists_interp_cl tcl stepsize_prep).map fun d =>
    ⟨np_interp d (dists_cum_cl tcl) (tcl.map TrackPoint.x),
     np_interp d (dists_cum_cl tcl) (tcl.map TrackPoint.y),
     np_interp d (dists_cum_cl tcl) (tcl.map TrackPoint.w_tr_right),
     np_interp d (dists_cum_cl tcl) (tcl.map TrackPoint.w_tr_left)⟩

/-- External scipy collaborators, modelled as fixed functions of their
inputs (the spec treats them as opaque interfaces): `splprep` maps the two
coordinate channels, degree and smoothing factor to a spline representation
plus fit parameter array; `splev` evaluates a spline representation at one
parameter; `fmin` maps a scalar objective and initial guess to a minimizing
scalar. -/
structure SplineLib (Tck : Type) where
  splprep : List ℝ → List ℝ → ℕ → ℝ → Tck × List ℝ
  splev : Tck → ℝ → ℝ × ℝ
  fmin : (ℝ → ℝ) → ℝ → ℝ

/-- Source `tck_cl` (lines 67-70): fit the smoothing spline to the x/y channels of
the resampled closed track; keep the representation, as the source does. -/
def tck_cl {Tck : Type} (lib : SplineLib Tck) (ti : List TrackPoint)
    (k_reg : ℕ) (s_reg : ℝ) : Tck :=
  (lib.splprep (ti.map TrackPoint.x) (ti.map TrackPoint.y) k_reg s_reg).1

/-- Sum of consecutive Euclidean distances of a 2D polyline (the
`np.sum(np.sqrt(np.sum(np.power(np.diff(...), 2), axis=1)))` idiom). -/
def polyline_len (pts : List (ℝ × ℝ)) : ℝ :=
  (List.zipWith euclDist pts (pts.drop 1)).sum

/-- Source `no_points_lencalc_cl = int(np.ceil(dists_cum_cl[-1])) * 4` (line 73). -/
def no_points_lencalc_cl (tcl : List TrackPoint) : ℕ :=
  (⌈total_dist_cl tcl⌉).toNat * 4

/-- Source `path_smoothed_tmp` (line 74): dense evaluation of the spline used only
to measure its length. -/
def path_smoothed_tmp {Tck : Type} (lib : SplineLib Tck) (tck : Tck)
    (tcl : List TrackPoint) : List (ℝ × ℝ) :=
  (linspace 0 1 (no_points_lencalc_cl tcl)).map (lib.splev tck)

/-- Source `len_path_smoothed_tmp` (line 75): numerically measured spline length. -/
def len_path_smoothed_tmp {Tck : Type} (lib : SplineLib Tck) (tck : Tck)
    (tcl : List TrackPoint) : ℝ :=
  polyline_len (path_smoothed_tmp lib tck tcl)

/-- Source `no_points_reg_cl = int(np.ceil(len_path_smoothed_tmp / stepsize_reg)) + 1` (line 78). -/
def no_points_reg_cl {Tck : Type} (lib : SplineLib Tck) (tck : Tck)
    (tcl : List TrackPoint) (stepsize_reg : ℝ) : ℕ :=
  (⌈len_path_smoothed_tmp lib tck tcl / stepsize_reg⌉).toNat + 1

/-- Source `path_smoothed` (line 79): evaluate at `no_points_reg_cl` uniform
parameters in `[0, 1]` and drop the last (duplicated closing) sample. -/
def path_smoothed {Tck : Type} (lib : SplineLib Tck) (tck : Tck)
    (tcl : List TrackPoint) (stepsize_reg : ℝ) : List (ℝ × ℝ) :=
  ((linspace 0 1 (no_points_reg_cl lib tck tcl stepsize_reg)).map (lib.splev tck)).dropLast

/-- Source `dist_to_p` (lines 137-139): distance from point `p` to the spline
point at parameter `t_glob`. -/
def dist_to_p {Tck : Type} (splev : Tck → ℝ → ℝ × ℝ) (t_glob : ℝ) (path : Tck)
    (p : ℝ × ℝ) : ℝ :=
  euclDist p (splev path t_glob)

/-- Source `t_glob_guess_cl = dists_cum_cl / dists_cum_cl[-1]` (line 89). -/
def t_glob_guess_cl (tcl : List TrackPoint) : List ℝ :=
  (dists_cum_cl tcl).map fun d => d / total_dist_cl tcl

/-- Source `closest_t_glob_cl` (lines 91-96): per point, run the scalar minimizer
on the point-to-spline distance objective from the normalized arc-length
initial guess. -/
def closest_t_glob_cl {Tck : Type} (lib : SplineLib Tck) (tck : Tck)
    (tcl : List TrackPoint) : List ℝ :=
  List.zipWith (fun g p => lib.fmin (fun t => dist_to_p lib.splev t tck (posXY p)) g)
    (t_glob_guess_cl tcl) tcl

/-- Source `closest_point_cl` (line 99): spline evaluated at each minimizing
parameter. -/
def closest_point_cl {Tck : Type} (lib : SplineLib Tck) (tck : Tck)
    (tcl : List TrackPoint) : List (ℝ × ℝ) :=
  (closest_t_glob_cl lib tck tcl).map (lib.splev tck)

/-- Source `dists_cl` (lines 102-103): Euclidean distance from each closest spline
point to its input point. -/
def dists_cl {Tck : Type} (lib : SplineLib Tck) (tck : Tck)
    (tcl : List TrackPoint) : List ℝ :=
  List.zipWith (fun cp p => Real.sqrt ((cp.1 - p.x) ^ 2 + (cp.2 - p.y) ^ 2))
    (closest_point_cl lib tck tcl) tcl

/-- Modelled from the spec: `side_of_line` lives in
`trajectory_planning_helpers/side_of_line.py`, which is not part of this
source tree; per the spec it is a 2D cross-product sign test returning
+1 when `z` is right of the directed segment `a → b`, −1 when left, 0 when
collinear. -/
def side_of_line (a b z : ℝ × ℝ) : ℝ :=
  Real.sign ((b.2 - a.2) * (z.1 - a.1) - (b.1 - a.1) * (z.2 - a.2))

/-- Source `sides` (lines 110-115): side of each closest spline point relative to
the segment from closed-track point `i` to point `i + 1`. -/
def sides (tcl : List TrackPoint) (cps : List (ℝ × ℝ)) : List ℝ :=
  List.zipWith (fun pq cp => side_of_line (posXY pq.1) (posXY pq.2) cp)
    (List.zip tcl (tcl.drop 1)) cps

/-- Source `sides_cl = np.hstack((sides, sides[0]))` (line 117). -/
def sides_cl (tcl : List TrackPoint) (cps : List (ℝ × ℝ)) : List ℝ :=
  sides tcl cps ++ (sides tcl cps).take 1

/-- Source `w_tr_right_new_cl = track_cl[:, 2] + sides_cl * dists_cl` (line 120). -/
def w_tr_right_new_cl (tcl : List TrackPoint) (scl dl : List ℝ) : List ℝ :=
  List.zipWith (fun p sd => p.w_tr_right + sd.1 * sd.2) tcl (List.zip scl dl)

/-- Source `w_tr_left_new_cl = track_cl[:, 3] - sides_cl * dists_cl` (line 121). -/
def w_tr_left_new_cl (tcl : List TrackPoint) (scl dl : List ℝ) : List ℝ :=
  List.zipWith (fun p sd => p.w_tr_left - sd.1 * sd.2) tcl (List.zip scl dl)

/-- Source `w_tr_right_smoothed_cl` (line 124): recomputed right widths
reinterpolated onto the final uniform parameter sampling. -/
def w_tr_right_smoothed_cl {Tck : Type} (lib : SplineLib Tck) (tck : Tck)
    (tcl : List TrackPoint) (stepsize_reg : ℝ) : List ℝ :=
  (linspace 0 1 (no_points_reg_cl lib tck tcl stepsize_reg)).map fun t =>
    np_interp t (closest_t_glob_cl lib tck tcl)
      (w_tr_right_new_cl tcl (sides_cl tcl (closest_point_cl lib tck tcl))
        (dists_cl lib tck tcl))

/-- Source `w_tr_left_smoothed_cl` (line 125). -/
def w_tr_left_smoothed_cl {Tck : Type} (lib : SplineLib Tck) (tck : Tck)
    (tcl : List TrackPoint) (stepsize_reg : ℝ) : List ℝ :=
  (linspace 0 1 (no_points_reg_cl lib tck tcl stepsize_reg)).map fun t =>
    np_interp t (closest_t_glob_cl lib tck tcl)
      (w_tr_left_new_cl tcl (sides_cl tcl (closest_point_cl lib tck tcl))
        (dists_cl lib tck tcl))

/-- Source `spline_approximation` (lines 8-129): the full pipeline.  `debug` only
prints diagnostics in the source and has no behavioral effect. -/
def spline_approximation {Tck : Type} (lib : SplineLib Tck) (track : List TrackPoint)
    (k_reg : ℕ) (s_reg : ℝ) (stepsize_prep stepsize_reg : ℝ) (debug : Bool) :
    List TrackPoint :=
  let tcl := track_cl track
  let tck := tck_cl lib (track_interp_cl tcl stepsize_prep) k_reg s_reg
  List.zipWith (fun (p : ℝ × ℝ) (w : ℝ × ℝ) => ⟨p.1, p.2, w.1, w.2⟩)
    (path_smoothed lib tck tcl stepsize_reg)
    (List.zip (w_tr_right_smoothed_cl lib tck tcl stepsize_reg).dropLast
      (w_tr_left_smoothed_cl lib tck tcl stepsize_reg).dropLast)

/-- Trivial concrete instantiation of the collaborators, used by witnesses. -/
def trivLib : SplineLib Unit :=
  ⟨fun _ _ _ _ => ((), []), fun _ _ => (0, 0), fun _ g => g⟩

/-- Concrete two-point track used by witnesses. -/
def wtrack : List TrackPoint :=
  [⟨0, 0, 1, 1⟩, ⟨3, 4, 2, 2⟩]

/-- Concrete track whose consecutive points coincide, used for C8. -/
def dupTrack : List TrackPoint :=
  [⟨0, 0, 1, 2⟩, ⟨0, 0, 1, 2⟩]

theorem calc_ax_core_length (vx el : List ℝ) (h : vx.length = el.length + 1) :
    (List.zipWith (fun d l => d / (2 * l))
      (List.zipWith (fun a b => a ^ 2 - b ^ 2) (vx.drop 1) vx) el).length = el.length := by
  simp [List.length_zipWith, List.length_drop, h]

/-- C5: for valid shapes (`len vx = len el + 1`) with nonzero element
lengths, `calc_ax_profile` with `eq_length_output = false` returns a list of
length `len el` with `A[i] = (vx[i+1]^2 - vx[i]^2) / (2 * el[i])` at every
index; in particular `V = [0, 10], L = [5]` gives `[10.0]` and a constant
velocity profile gives all zeros. -/
theorem C5_ax_formula :
    (∀ vx el : List ℝ, vx.length = el.length + 1 → (∀ l ∈ el, l ≠ 0) →
      ∃ A, calc_ax_profile vx el false = some A ∧ A.length = el.length ∧
        ∀ i, i < el.length →
          A.getD i 0 = ((vx.getD (i + 1) 0) ^ 2 - (vx.getD i 0) ^ 2) / (2 * el.getD i 0))
    ∧ calc_ax_profile [(0 : ℝ), 10] [(5 : ℝ)] false = some [(10 : ℝ)]
    ∧ ∀ (v : ℝ) (el : List ℝ),
        ∃ A, calc_ax_profile (List.replicate (el.length + 1) v) el false = some A ∧
          ∀ x ∈ A, x = 0 := by
  refine ⟨?_, ?_, ?_⟩
  · intro vx el h hnz
    refine ⟨List.zipWith (fun d l => d / (2 * l))
        (List.zipWith (fun a b => a ^ 2 - b ^ 2) (vx.drop 1) vx) el, ?_, ?_, ?_⟩
    · simp [calc_ax_profile, h]
    · exact calc_ax_core_length vx el h
    · intro i hi
      have hlen := calc_ax_core_length vx el h
      have hi' : i < (List.zipWith (fun d l => d / (2 * l))
          (List.zipWith (fun a b => a ^ 2 - b ^ 2) (vx.drop 1) vx) el).length := by
        rw [hlen]; exact hi
      have hsd : i < (List.zipWith (fun a b => a ^ 2 - b ^ 2) (vx.drop 1) vx).length := by
        simp [List.length_zipWith, List.length_drop, h]; omega
      have hd : i < (vx.drop 1).length := by
        simp [List.length_drop, h]; omega
      have hv : i < vx.length := by omega
      have hv1 : i + 1 < vx.length := by omega
      rw [List.getD_eq_getElem _ _ hi', List.getElem_zipWith, List.getElem_zipWith,
        List.getElem_drop, List.getD_eq_getElem _ _ hv1, List.getD_eq_getElem _ _ hv,
        List.getD_eq_getElem _ _ hi]
      norm_num [Nat.add_comm 1 i]
  · norm_num [calc_ax_profile]
  · intro v el
    refine ⟨List.zipWith (fun d l => d / (2 * l))
        (List.zipWith (fun a b => a ^ 2 - b ^ 2)
          ((List.replicate (el.length + 1) v).drop 1) (List.replicate (el.length + 1) v))
        el, ?_, ?_⟩
    · simp [calc_ax_profile]
    · intro x hx
      obtain ⟨i, hi, rfl⟩ := List.mem_iff_getElem.mp hx
      simp [List.getElem_zipWith, List.getElem_drop, List.getElem_replicate]

/-- C5 witness: the concrete spec instance `V = [0, 10], L = [5]`,
extracted by applying `C5_ax_formula`. -/
theorem C5_ax_formula_witness :
    calc_ax_profile [(0 : ℝ), 10] [(5 : ℝ)] false = some [(10 : ℝ)] :=
  C5_ax_formula.2.1

/-- C6: `calc_ax_profile` fails (returns `none`, modelling the
`ValueError`) exactly when `len vx ≠ len el + 1`; the model is a pure
function, so no partial result exists on failure. -/
theorem C6_error_iff (vx el : List ℝ) (eq_length_output : Bool) :
    calc_ax_profile vx el eq_length_output = none ↔ vx.length ≠ el.length + 1 := by
  unfold calc_ax_profile
  split
  · simp_all
  · cases eq_length_output <;> simp_all

/-- C7: with `eq_length_output = true` on valid shapes, the result has
length `len vx`, ends in `0`, and its first `len vx - 1` entries are the
`eq_length_output = false` result on the same input. -/
theorem C7_eq_length (vx el : List ℝ) (h : vx.length = el.length + 1) :
    ∃ A B, calc_ax_profile vx el true = some A ∧ calc_ax_profile vx el false = some B ∧
      A.length = vx.length ∧ A.getD (vx.length - 1) 0 = 0 ∧ A.take (vx.length - 1) = B := by
  set core := List.zipWith (fun d l => d / (2 * l))
      (List.zipWith (fun a b => a ^ 2 - b ^ 2) (vx.drop 1) vx) el with hcore
  have hlen : core.length = el.length := calc_ax_core_length vx el h
  refine ⟨core ++ [0], core, ?_, ?_, ?_, ?_, ?_⟩
  · simp [calc_ax_profile, h, hcore]
  · simp [calc_ax_profile, h, hcore]
  · simp [hlen, h]
  · have hidx : vx.length - 1 = core.length := by omega
    rw [hidx]
    have hlt : core.length < (core ++ [(0 : ℝ)]).length := by simp
    rw [List.getD_eq_getElem _ _ hlt, List.getElem_append_right (Nat.le_refl _)]
    simp
  · have hidx : vx.length - 1 = core.length := by omega
    rw [hidx, List.take_left]

/-- C7 witness at `vx = [0, 10]`, `el = [5]`. -/
theorem C7_eq_length_witness :
    ∃ A B, calc_ax_profile [(0 : ℝ), 10] [(5 : ℝ)] true = some A ∧
      calc_ax_profile [(0 : ℝ), 10] [(5 : ℝ)] false = some B ∧
      A.length = [(0 : ℝ), 10].length ∧ A.getD ([(0 : ℝ), 10].length - 1) 0 = 0 ∧
      A.take ([(0 : ℝ), 10].length - 1) = B :=
  C7_eq_length [0, 10] [5] rfl

theorem closest_point_cl_length {Tck : Type} (lib : SplineLib Tck) (tck : Tck)
    (tcl : List TrackPoint) (h : tcl ≠ []) :
    (closest_point_cl lib tck tcl).length = tcl.length := by
  have h0 : tcl.length ≠ 0 := by simpa [List.length_eq_zero] using h
  simp only [closest_point_cl, closest_t_glob_cl, t_glob_guess_cl, dists_cum_cl,
    el_lengths_cl, List.length_map, List.length_zipWith, List.length_scanl,
    List.length_drop]
  omega

theorem dists_cl_length {Tck : Type} (lib : SplineLib Tck) (tck : Tck)
    (tcl : List TrackPoint) (h : tcl ≠ []) :
    (dists_cl lib tck tcl).length = tcl.length := by
  have h0 : tcl.length ≠ 0 := by simpa [List.length_eq_zero] using h
  simp only [dists_cl, closest_point_cl, closest_t_glob_cl, t_glob_guess_cl,
    dists_cum_cl, el_lengths_cl, List.length_map, List.length_zipWith,
    List.length_scanl, List.length_drop]
  omega

theorem sides_length (tcl : List TrackPoint) (cps : List (ℝ × ℝ))
    (h : tcl.length ≤ cps.length) :
    (sides tcl cps).length = tcl.length - 1 := by
  simp only [sides, List.length_zipWith, List.length_zip, List.length_drop]
  omega

theorem sides_cl_getD (tcl : List TrackPoint) (cps : List (ℝ × ℝ)) (i : ℕ)
    (h1 : i + 1 < tcl.length) (h2 : i < cps.length) :
    (sides_cl tcl cps).getD i 0
      = side_of_line (posXY (tcl.getD i default)) (posXY (tcl.getD (i + 1) default))
          (cps.getD i (0, 0)) := by
  have hin : i < (sides tcl cps).length := by
    simp only [sides, List.length_zipWith, List.length_zip, List.length_drop]
    omega
  have hout : i < (sides_cl tcl cps).length := by
    simp only [sides_cl, List.length_append]
    omega
  have hzip : i < (List.zip tcl (tcl.drop 1)).length := by
    simp only [List.length_zip, List.length_drop]
    omega
  have hdrop : i < (tcl.drop 1).length := by
    simp only [List.length_drop]
    omega
  have h1' : i < tcl.length := by omega
  rw [List.getD_eq_getElem _ _ hout]
  simp only [sides_cl]
  rw [List.getElem_append_left hin]
  simp only [sides, List.getElem_zipWith, List.getElem_zip, List.getElem_drop]
  rw [List.getD_eq_getElem _ _ h1', List.getD_eq_getElem _ _ h1,
    List.getD_eq_getElem _ _ h2]
  norm_num [Nat.add_comm 1 i]

theorem w_tr_right_new_cl_getD (tcl : List TrackPoint) (scl dl : List ℝ) (i : ℕ)
    (h1 : i < tcl.length) (h2 : i < scl.length) (h3 : i < dl.length) :
    (w_tr_right_new_cl tcl scl dl).getD i 0
      = (tcl.getD i default).w_tr_right + scl.getD i 0 * dl.getD i 0 := by
  have hin : i < (w_tr_right_new_cl tcl scl dl).length := by
    simp only [w_tr_right_new_cl, List.length_zipWith, List.length_zip]
    omega
  have hzip : i < (List.zip scl dl).length := by
    simp only [List.length_zip]
    omega
  rw [List.getD_eq_getElem _ _ hin, List.getD_eq_getElem _ _ h1,
    List.getD_eq_getElem _ _ h2, List.getD_eq_getElem _ _ h3]
  simp only [w_tr_right_new_cl, List.getElem_zipWith, List.getElem_zip]

theorem w_tr_left_new_cl_getD (tcl : List TrackPoint) (scl dl : List ℝ) (i : ℕ)
    (h1 : i < tcl.length) (h2 : i < scl.length) (h3 : i < dl.length) :
    (w_tr_left_new_cl tcl scl dl).getD i 0
      = (tcl.getD i default).w_tr_left - scl.getD i 0 * dl.getD i 0 := by
  have hin : i < (w_tr_left_new_cl tcl scl dl).length := by
    simp only [w_tr_left_new_cl, List.length_zipWith, List.length_zip]
    omega
  have hzip : i < (List.zip scl dl).length := by
    simp only [List.length_zip]
    omega
  rw [List.getD_eq_getElem _ _ hin, List.getD_eq_getElem _ _ h1,
    List.getD_eq_getElem _ _ h2, List.getD_eq_getElem _ _ h3]
  simp only [w_tr_left_new_cl, List.getElem_zipWith, List.getElem_zip]

/-- C1: at every closed-track point `i` that starts a segment, the
recomputed widths before reinterpolation satisfy
`new_right[i] = old_right[i] + side_sign[i] * dist[i]` and
`new_left[i] = old_left[i] - side_sign[i] * dist[i]`, where `side_sign[i]`
is the side-of-line sign of the closest spline point relative to the
segment from point `i` to point `i + 1` and `dist[i]` is the distance from
point `i` to its closest spline point. -/
theorem C1_width_recompute {Tck : Type} (lib : SplineLib Tck) (tck : Tck)
    (tcl : List TrackPoint) (i : ℕ) (h : i + 1 < tcl.length) :
    (w_tr_right_new_cl tcl (sides_cl tcl (closest_point_cl lib tck tcl))
        (dists_cl lib tck tcl)).getD i 0
      = (tcl.getD i default).w_tr_right
        + side_of_line (posXY (tcl.getD i default)) (posXY (tcl.getD (i + 1) default))
            ((closest_point_cl lib tck tcl).getD i (0, 0))
          * (dists_cl lib tck tcl).getD i 0
    ∧ (w_tr_left_new_cl tcl (sides_cl tcl (closest_point_cl lib tck tcl))
        (dists_cl lib tck tcl)).getD i 0
      = (tcl.getD i default).w_tr_left
        - side_of_line (posXY (tcl.getD i default)) (posXY (tcl.getD (i + 1) default))
            ((closest_point_cl lib tck tcl).getD i (0, 0))
          * (dists_cl lib tck tcl).getD i 0 := by
  have hne : tcl ≠ [] := by
    intro hnil
    rw [hnil] at h
    simp at h
  have hcps : (closest_point_cl lib tck tcl).length = tcl.length :=
    closest_point_cl_length lib tck tcl hne
  have hdl : (dists_cl lib tck tcl).length = tcl.length :=
    dists_cl_length lib tck tcl hne
  have hscl : (sides_cl tcl (closest_point_cl lib tck tcl)).length = tcl.length := by
    have := sides_length tcl (closest_point_cl lib tck tcl) (le_of_eq hcps.symm)
    simp only [sides_cl, List.length_append, List.length_take, this]
    omega
  have h1 : i < tcl.length := by omega
  constructor
  · rw [w_tr_right_new_cl_getD tcl _ _ i h1 (by omega) (by omega),
      sides_cl_getD tcl _ i h (by omega)]
  · rw [w_tr_left_new_cl_getD tcl _ _ i h1 (by omega) (by omega),
      sides_cl_getD tcl _ i h (by omega)]

/-- C1 witness at the concrete two-point closed track `wtrack` with the
trivial collaborators, index 0. -/
theorem C1_width_recompute_witness :
    (w_tr_right_new_cl wtrack (sides_cl wtrack (closest_point_cl trivLib () wtrack))
        (dists_cl trivLib () wtrack)).getD 0 0
      = (wtrack.getD 0 default).w_tr_right
        + side_of_line (posXY (wtrack.getD 0 default)) (posXY (wtrack.getD 1 default))
            ((closest_point_cl trivLib () wtrack).getD 0 (0, 0))
          * (dists_cl trivLib () wtrack).getD 0 0
    ∧ (w_tr_left_new_cl wtrack (sides_cl wtrack (closest_point_cl trivLib () wtrack))
        (dists_cl trivLib () wtrack)).getD 0 0
      = (wtrack.getD 0 default).w_tr_left
        - side_of_line (posXY (wtrack.getD 0 default)) (posXY (wtrack.getD 1 default))
            ((closest_point_cl trivLib () wtrack).getD 0 (0, 0))
          * (dists_cl trivLib () wtrack).getD 0 0 :=
  C1_width_recompute trivLib () wtrack 0 (by decide)

/-- C4: for every point `i` of the closed track, the projector calls the
minimizer on the point-to-spline distance objective with initial guess
`dists_cum_cl[i] / dists_cum_cl[-1]`, and records the returned parameter,
the spline evaluated there, and the Euclidean distance from that evaluated
point to the input point. -/
theorem C4_projector {Tck : Type} (lib : SplineLib Tck) (tck : Tck)
    (tcl : List TrackPoint) (i : ℕ) (h : i < tcl.length) :
    (closest_t_glob_cl lib tck tcl).getD i 0
      = lib.fmin (fun t => dist_to_p lib.splev t tck (posXY (tcl.getD i default)))
          ((dists_cum_cl tcl).getD i 0 / total_dist_cl tcl)
    ∧ (closest_point_cl lib tck tcl).getD i (0, 0)
      = lib.splev tck ((closest_t_glob_cl lib tck tcl).getD i 0)
    ∧ (dists_cl lib tck tcl).getD i 0
      = euclDist (posXY (tcl.getD i default))
          ((closest_point_cl lib tck tcl).getD i (0, 0)) := by
  have hcum : (dists_cum_cl tcl).length = tcl.length - 1 + 1 := by
    simp only [dists_cum_cl, el_lengths_cl, List.length_scanl, List.length_zipWith,
      List.length_drop]
    omega
  have hguess : i < (t_glob_guess_cl tcl).length := by
    simp only [t_glob_guess_cl, List.length_map]
    omega
  have hct : i < (closest_t_glob_cl lib tck tcl).length := by
    simp only [closest_t_glob_cl, List.length_zipWith]
    omega
  have hcp : i < (closest_point_cl lib tck tcl).length := by
    simp only [closest_point_cl, List.length_map]
    omega
  have hdl : i < (dists_cl lib tck tcl).length := by
    simp only [dists_cl, List.length_zipWith]
    omega
  have hcum' : i < (dists_cum_cl tcl).length := by omega
  refine ⟨?_, ?_, ?_⟩
  · rw [List.getD_eq_getElem _ _ hct, List.getD_eq_getElem _ _ h,
      List.getD_eq_getElem _ _ hcum']
    simp only [closest_t_glob_cl, List.getElem_zipWith, t_glob_guess_cl,
      List.getElem_map]
  · rw [List.getD_eq_getElem _ _ hcp, List.getD_eq_getElem _ _ hct]
    simp only [closest_point_cl, List.getElem_map]
  · rw [List.getD_eq_getElem _ _ hdl, List.getD_eq_getElem _ _ h,
      List.getD_eq_getElem _ _ hcp]
    simp only [dists_cl, List.getElem_zipWith, euclDist, posXY]

/-- C4 witness at the concrete track `wtrack` with the trivial
collaborators, index 0. -/
theorem C4_projector_witness :
    (closest_t_glob_cl trivLib () wtrack).getD 0 0
      = trivLib.fmin (fun t => dist_to_p trivLib.splev t () (posXY (wtrack.getD 0 default)))
          ((dists_cum_cl wtrack).getD 0 0 / total_dist_cl wtrack)
    ∧ (closest_point_cl trivLib () wtrack).getD 0 (0, 0)
      = trivLib.splev () ((closest_t_glob_cl trivLib () wtrack).getD 0 0)
    ∧ (dists_cl trivLib () wtrack).getD 0 0
      = euclDist (posXY (wtrack.getD 0 default))
          ((closest_point_cl trivLib () wtrack).getD 0 (0, 0)) :=
  C4_projector trivLib () wtrack 0 (by decide)

/-- C9: with the external spline fitting, spline evaluation and minimizer
modelled as fixed functions of their inputs, the whole pipeline is a pure
function, so two runs on identical inputs with identical parameters give
identical outputs. -/
theorem C9_deterministic {Tck : Type} (lib : SplineLib Tck) (track : List TrackPoint)
    (k_reg : ℕ) (s_reg stepsize_prep stepsize_reg : ℝ) (debug : Bool) :
    spline_approximation lib track k_reg s_reg stepsize_prep stepsize_reg debug
      = spline_approximation lib track k_reg s_reg stepsize_prep stepsize_reg debug := rfl

/-- C10: the side sign stored for the final (closing duplicate) point of
the closed track is a copy of the first segment's side sign:
`sides_cl[n - 1] = sides_cl[0]` for a closed track of `n` points. -/
theorem C10_closing_side_sign {Tck : Type} (lib : SplineLib Tck) (tck : Tck)
    (tcl : List TrackPoint) (h : 2 ≤ tcl.length) :
    (sides_cl tcl (closest_point_cl lib tck tcl)).getD (tcl.length - 1) 0
      = (sides_cl tcl (closest_point_cl lib tck tcl)).getD 0 0 := by
  have hne : tcl ≠ [] := by
    intro hnil
    rw [hnil] at h
    simp at h
  have hcps : (closest_point_cl lib tck tcl).length = tcl.length :=
    closest_point_cl_length lib tck tcl hne
  have hs : (sides tcl (closest_point_cl lib tck tcl)).length = tcl.length - 1 :=
    sides_length tcl _ (le_of_eq hcps.symm)
  have hs1 : (sides tcl (closest_point_cl lib tck tcl)).length ≠ 0 := by omega
  have htake : ((sides tcl (closest_point_cl lib tck tcl)).take 1).length = 1 := by
    simp only [List.length_take]
    omega
  have hout : tcl.length - 1 < (sides_cl tcl (closest_point_cl lib tck tcl)).length := by
    simp only [sides_cl, List.length_append, hs, htake]
    omega
  have hout0 : 0 < (sides_cl tcl (closest_point_cl lib tck tcl)).length := by omega
  have h0s : 0 < (sides tcl (closest_point_cl lib tck tcl)).length := by omega
  rw [List.getD_eq_getElem _ _ hout, List.getD_eq_getElem _ _ hout0]
  simp only [sides_cl]
  rw [List.getElem_append_left h0s]
  have hge : (sides tcl (closest_point_cl lib tck tcl)).length ≤ tcl.length - 1 := by omega
  rw [List.getElem_append_right hge]
  have : tcl.length - 1 - (sides tcl (closest_point_cl lib tck tcl)).length = 0 := by omega
  simp only [this, List.getElem_take]

/-- C10 witness at the concrete three-point closed track built from
`wtrack` with the trivial collaborators. -/
theorem C10_closing_side_sign_witness :
    (sides_cl (track_cl wtrack) (closest_point_cl trivLib () (track_cl wtrack))).getD
        ((track_cl wtrack).length - 1) 0
      = (sides_cl (track_cl wtrack) (closest_point_cl trivLib () (track_cl wtrack))).getD 0 0 :=
  C10_closing_side_sign trivLib () (track_cl wtrack) (by decide)

theorem linspace_length (a b : ℝ) (n : ℕ) : (linspace a b n).length = n := by
  simp only [linspace, List.length_map, List.length_range]

theorem linspace_getD (a b : ℝ) (n i : ℕ) (h : i < n) :
    (linspace a b n).getD i 0 = a + (b - a) * i / ((n : ℝ) - 1) := by
  have h' : i < (linspace a b n).length := by
    rw [linspace_length]; exact h
  rw [List.getD_eq_getElem _ _ h']
  simp only [linspace, List.getElem_map, List.getElem_range]

theorem mem_linspace_unit (n : ℕ) (t : ℝ) (ht : t ∈ linspace 0 1 n) :
    0 ≤ t ∧ t ≤ 1 := by
  simp only [linspace, List.mem_map, List.mem_range] at ht
  obtain ⟨i, hin, rfl⟩ := ht
  have hn1 : (1 : ℕ) ≤ n := by omega
  have hcast : (i : ℝ) ≤ (n : ℝ) - 1 := by
    have : (i : ℝ) + 1 ≤ (n : ℝ) := by exact_mod_cast Nat.succ_le_of_lt hin
    linarith
  have hden : (0 : ℝ) ≤ (n : ℝ) - 1 := by
    have : (1 : ℝ) ≤ (n : ℝ) := by exact_mod_cast hn1
    linarith
  constructor
  · have : (0 : ℝ) ≤ (i : ℝ) / ((n : ℝ) - 1) := div_nonneg (by positivity) hden
    simpa using this
  · rcases eq_or_lt_of_le hden with h0 | hpos
    · simp [← h0]
    · have : (i : ℝ) / ((n : ℝ) - 1) ≤ 1 := (div_le_one hpos).mpr hcast
      simpa using this

theorem scanl_add_getLastD (l : List ℝ) : ∀ c d : ℝ,
    (List.scanl (· + ·) c l).getLastD d = c + l.sum := by
  induction l with
  | nil => intro c d; simp [List.scanl]
  | cons a l ih =>
    intro c d
    rw [List.scanl_cons, List.singleton_append, List.getLastD_cons, ih]
    simp only [List.sum_cons]
    ring

theorem mem_scanl_add_le (l : List ℝ) : ∀ c y : ℝ, (∀ v ∈ l, 0 ≤ v) →
    y ∈ List.scanl (· + ·) c l → y ≤ c + l.sum := by
  induction l with
  | nil =>
    intro c y _ hy
    simp only [List.scanl_nil, List.mem_singleton] at hy
    simp [hy]
  | cons a l ih =>
    intro c y hnn hy
    rw [List.scanl_cons, List.singleton_append] at hy
    rcases List.mem_cons.mp hy with rfl | hy'
    · have h1 : 0 ≤ a := hnn a (by simp)
      have h2 : 0 ≤ l.sum := List.sum_nonneg fun v hv => hnn v (by simp [hv])
      simp only [List.sum_cons]
      linarith
    · have h3 := ih (c + a) y (fun v hv => hnn v (by simp [hv])) hy'
      simp only [List.sum_cons]
      linarith

theorem zip_getLastD (l1 l2 : List ℝ) (d1 d2 : ℝ) (h : l1.length = l2.length) :
    (List.zip l1 l2).getLastD (d1, d2) = (l1.getLastD d1, l2.getLastD d2) := by
  induction l1 generalizing l2 d1 d2 with
  | nil =>
    cases l2 with
    | nil => simp
    | cons b l2 => simp at h
  | cons a l1 ih =>
    cases l2 with
    | nil => simp at h
    | cons b l2 =>
      simp only [List.zip_cons_cons, List.getLastD_cons]
      exact ih l2 a b (by simpa using h)

theorem np_interp_go_last (x : ℝ) :
    ∀ pts : List (ℝ × ℝ), pts ≠ [] → (∀ p ∈ pts, p.1 ≤ x) →
      np_interp_go x pts = (pts.getLastD (0, 0)).2 := by
  intro pts
  induction pts with
  | nil => intro h _; exact absurd rfl h
  | cons hd tl ih =>
    intro _ hle
    cases tl with
    | nil =>
      obtain ⟨x0, f0⟩ := hd
      simp [np_interp_go]
    | cons hd2 tl2 =>
      obtain ⟨x0, f0⟩ := hd
      obtain ⟨x1, f1⟩ := hd2
      have hx1 : x1 ≤ x := by
        have := hle (x1, f1) (by simp)
        simpa using this
      simp only [np_interp_go]
      rw [if_neg (not_lt.mpr hx1)]
      rw [ih (by simp) fun p hp => hle p (by simp [hp])]
      simp [List.getLastD_cons]

theorem np_interp_right (x : ℝ) (xp fp : List ℝ) (hne : xp ≠ [])
    (hlen : xp.length = fp.length) (hle : ∀ v ∈ xp, v ≤ x) :
    np_interp x xp fp = fp.getLastD 0 := by
  cases xp with
  | nil => exact absurd rfl hne
  | cons x0 xs =>
    cases fp with
    | nil => simp at hlen
    | cons f0 fs =>
      have hx0 : x0 ≤ x := hle x0 (by simp)
      simp only [np_interp]
      rw [if_neg (not_lt.mpr hx0)]
      rw [np_interp_go_last x _ (by simp) ?hle]
      case hle =>
        intro p hp
        obtain ⟨hp1, _⟩ := List.of_mem_zip hp
        exact hle p.1 hp1
      rw [zip_getLastD _ _ 0 0 hlen]

theorem np_interp_at_zero (x1 : ℝ) (xs : List ℝ) (f0 f1 : ℝ) (fs : List ℝ)
    (h : 0 < x1) :
    np_interp 0 ((0 : ℝ) :: x1 :: xs) (f0 :: f1 :: fs) = f0 := by
  simp only [np_interp]
  rw [if_neg (lt_irrefl 0)]
  simp only [List.zip_cons_cons, np_interp_go]
  rw [if_pos h]
  ring

theorem el_lengths_cl_nonneg (tcl : List TrackPoint) :
    ∀ v ∈ el_lengths_cl tcl, 0 ≤ v := by
  intro v hv
  obtain ⟨i, hi, rfl⟩ := List.mem_iff_getElem.mp hv
  simp only [el_lengths_cl, List.getElem_zipWith, euclDist]
  exact Real.sqrt_nonneg _

theorem total_dist_cl_eq_sum (tcl : List TrackPoint) :
    total_dist_cl tcl = (el_lengths_cl tcl).sum := by
  simp only [total_dist_cl, dists_cum_cl]
  rw [scanl_add_getLastD, zero_add]

/-- C3: the smoothed path is the spline evaluated at exactly
`ceil(measured_length / stepsize_reg) + 1` uniformly spaced parameter
values in `[0, 1]` (where the length is the numerically measured spline
length) with the last sample dropped, so it has
`ceil(measured_length / stepsize_reg)` points (unclosed). -/
theorem C3_smoothed_path {Tck : Type} (lib : SplineLib Tck) (tck : Tck)
    (tcl : List TrackPoint) (stepsize_reg : ℝ) :
    path_smoothed lib tck tcl stepsize_reg
      = ((linspace 0 1 (no_points_reg_cl lib tck tcl stepsize_reg)).map
          (lib.splev tck)).dropLast
    ∧ no_points_reg_cl lib tck tcl stepsize_reg
      = (⌈len_path_smoothed_tmp lib tck tcl / stepsize_reg⌉).toNat + 1
    ∧ (∀ i, i < no_points_reg_cl lib tck tcl stepsize_reg →
        (linspace 0 1 (no_points_reg_cl lib tck tcl stepsize_reg)).getD i 0
          = (i : ℝ) / ((no_points_reg_cl lib tck tcl stepsize_reg : ℝ) - 1))
    ∧ (∀ t ∈ linspace 0 1 (no_points_reg_cl lib tck tcl stepsize_reg), 0 ≤ t ∧ t ≤ 1)
    ∧ (path_smoothed lib tck tcl stepsize_reg).length
      = (⌈len_path_smoothed_tmp lib tck tcl / stepsize_reg⌉).toNat := by
  refine ⟨rfl, rfl, ?_, ?_, ?_⟩
  · intro i hi
    rw [linspace_getD 0 1 _ i hi]
    ring
  · intro t ht
    exact mem_linspace_unit _ t ht
  · simp [path_smoothed, linspace_length, no_points_reg_cl]

/-- C3 witness at the trivial collaborators and the concrete track
`wtrack`, `stepsize_reg = 3`. -/
theorem C3_smoothed_path_witness :
    path_smoothed trivLib () wtrack 3
      = ((linspace 0 1 (no_points_reg_cl trivLib () wtrack 3)).map
          (trivLib.splev ())).dropLast
    ∧ no_points_reg_cl trivLib () wtrack 3
      = (⌈len_path_smoothed_tmp trivLib () wtrack / 3⌉).toNat + 1
    ∧ (∀ i, i < no_points_reg_cl trivLib () wtrack 3 →
        (linspace 0 1 (no_points_reg_cl trivLib () wtrack 3)).getD i 0
          = (i : ℝ) / ((no_points_reg_cl trivLib () wtrack 3 : ℝ) - 1))
    ∧ (∀ t ∈ linspace 0 1 (no_points_reg_cl trivLib () wtrack 3), 0 ≤ t ∧ t ≤ 1)
    ∧ (path_smoothed trivLib () wtrack 3).length
      = (⌈len_path_smoothed_tmp trivLib () wtrack / 3⌉).toNat :=
  C3_smoothed_path trivLib () wtrack 3

theorem el_lengths_cl_cons (a b : TrackPoint) (rest : List TrackPoint) :
    el_lengths_cl (a :: b :: rest)
      = euclDist (posXY a) (posXY b) :: el_lengths_cl (b :: rest) := by
  simp only [el_lengths_cl, List.drop_succ_cons, List.drop_zero, List.zipWith_cons_cons]

theorem np_interp_cum_zero (a b : TrackPoint) (rest : List TrackPoint)
    (ch : TrackPoint → ℝ)
    (h0 : 0 < (el_lengths_cl (a :: b :: rest)).getD 0 0) :
    np_interp 0 (dists_cum_cl (a :: b :: rest)) ((a :: b :: rest).map ch) = ch a := by
  rw [el_lengths_cl_cons, List.getD_cons_zero] at h0
  obtain ⟨t, ht⟩ : ∃ t, List.scanl (· + ·) (0 + euclDist (posXY a) (posXY b))
      (el_lengths_cl (b :: rest)) = (0 + euclDist (posXY a) (posXY b)) :: t := by
    cases el_lengths_cl (b :: rest) with
    | nil => exact ⟨[], rfl⟩
    | cons u l => exact ⟨_, by rw [List.scanl_cons, List.singleton_append]⟩
  have hcum : dists_cum_cl (a :: b :: rest)
      = 0 :: (0 + euclDist (posXY a) (posXY b)) :: t := by
    rw [dists_cum_cl, el_lengths_cl_cons, List.scanl_cons, List.singleton_append, ht]
  rw [hcum, List.map_cons, List.map_cons]
  exact np_interp_at_zero _ _ _ _ _ (by rw [zero_add]; exact h0)

theorem dists_cum_cl_length (tcl : List TrackPoint) (hne : tcl ≠ []) :
    (dists_cum_cl tcl).length = tcl.length := by
  have h0 : tcl.length ≠ 0 := by simpa [List.length_eq_zero] using hne
  simp only [dists_cum_cl, List.length_scanl, el_lengths_cl, List.length_zipWith,
    List.length_drop]
  omega

theorem np_interp_cum_last (tcl : List TrackPoint) (ch : TrackPoint → ℝ)
    (hne : tcl ≠ []) :
    np_interp (total_dist_cl tcl) (dists_cum_cl tcl) (tcl.map ch)
      = (tcl.map ch).getLastD 0 := by
  have hlen0 : tcl.length ≠ 0 := by simpa [List.length_eq_zero] using hne
  have hxplen : (dists_cum_cl tcl).length = tcl.length := dists_cum_cl_length tcl hne
  apply np_interp_right
  · apply List.ne_nil_of_length_pos
    omega
  · rw [hxplen, List.length_map]
  · intro v hv
    simp only [dists_cum_cl] at hv
    have h1 := mem_scanl_add_le (el_lengths_cl tcl) 0 v (el_lengths_cl_nonneg tcl) hv
    rw [total_dist_cl_eq_sum]
    linarith

theorem track_interp_cl_length (tcl : List TrackPoint) (s : ℝ) :
    (track_interp_cl tcl s).length = no_points_interp_cl tcl s := by
  simp only [track_interp_cl, List.length_map, dists_interp_cl, linspace_length]

theorem track_interp_cl_getD (tcl : List TrackPoint) (s : ℝ) (i : ℕ)
    (h : i < no_points_interp_cl tcl s) :
    (track_interp_cl tcl s).getD i default
      = ⟨np_interp ((dists_interp_cl tcl s).getD i 0) (dists_cum_cl tcl)
           (tcl.map TrackPoint.x),
         np_interp ((dists_interp_cl tcl s).getD i 0) (dists_cum_cl tcl)
           (tcl.map TrackPoint.y),
         np_interp ((dists_interp_cl tcl s).getD i 0) (dists_cum_cl tcl)
           (tcl.map TrackPoint.w_tr_right),
         np_interp ((dists_interp_cl tcl s).getD i 0) (dists_cum_cl tcl)
           (tcl.map TrackPoint.w_tr_left)⟩ := by
  have h1 : i < (track_interp_cl tcl s).length := by
    rw [track_interp_cl_length]; exact h
  have h2 : i < (dists_interp_cl tcl s).length := by
    simp only [dists_interp_cl, linspace_length]; exact h
  rw [List.getD_eq_getElem _ _ h1, List.getD_eq_getElem _ _ h2]
  simp only [track_interp_cl, List.getElem_map]

/-- C2: for an unclosed input track with at least 2 points (and, per the
data-model invariant, a nondegenerate first segment), target step `s > 0`,
the pre-smoothing resampling stage yields `ceil(perimeter / s) + 1` points
whose target cumulative distances are evenly spaced from `0` to the total
perimeter, each of the four channels being obtained independently by
piecewise-linear interpolation against the closed input track's cumulative
distances; the resampled track is closed (first point = last point). -/
theorem C2_prep_resampling (track : List TrackPoint) (stepsize_prep : ℝ)
    (h2 : 2 ≤ track.length) (hs : 0 < stepsize_prep)
    (h0 : 0 < (el_lengths_cl (track_cl track)).getD 0 0) :
    (track_interp_cl (track_cl track) stepsize_prep).length
      = (⌈total_dist_cl (track_cl track) / stepsize_prep⌉).toNat + 1
    ∧ (∀ i, i < no_points_interp_cl (track_cl track) stepsize_prep →
        (dists_interp_cl (track_cl track) stepsize_prep).getD i 0
          = total_dist_cl (track_cl track) * i
            / ((no_points_interp_cl (track_cl track) stepsize_prep : ℝ) - 1))
    ∧ (∀ i, i < no_points_interp_cl (track_cl track) stepsize_prep →
        (track_interp_cl (track_cl track) stepsize_prep).getD i default
          = ⟨np_interp ((dists_interp_cl (track_cl track) stepsize_prep).getD i 0)
               (dists_cum_cl (track_cl track)) ((track_cl track).map TrackPoint.x),
             np_interp ((dists_interp_cl (track_cl track) stepsize_prep).getD i 0)
               (dists_cum_cl (track_cl track)) ((track_cl track).map TrackPoint.y),
             np_interp ((dists_interp_cl (track_cl track) stepsize_prep).getD i 0)
               (dists_cum_cl (track_cl track)) ((track_cl track).map TrackPoint.w_tr_right),
             np_interp ((dists_interp_cl (track_cl track) stepsize_prep).getD i 0)
               (dists_cum_cl (track_cl track)) ((track_cl track).map TrackPoint.w_tr_left)⟩)
    ∧ (track_interp_cl (track_cl track) stepsize_prep).getD 0 default
        = (track_interp_cl (track_cl track) stepsize_prep).getD
            (no_points_interp_cl (track_cl track) stepsize_prep - 1) default := by
  obtain ⟨A, B, ts, rfl⟩ : ∃ A B ts, track = A :: B :: ts := by
    cases track with
    | nil => simp at h2
    | cons A t =>
      cases t with
      | nil => simp at h2
      | cons B ts => exact ⟨A, B, ts, rfl⟩
  have htcl : track_cl (A :: B :: ts) = A :: B :: (ts ++ [A]) := by
    simp [track_cl]
  rw [htcl] at h0 ⊢
  have hsum : 0 ≤ (el_lengths_cl (B :: (ts ++ [A]))).sum :=
    List.sum_nonneg (el_lengths_cl_nonneg _)
  have h0' := h0
  rw [el_lengths_cl_cons, List.getD_cons_zero] at h0'
  have hT : 0 < total_dist_cl (A :: B :: (ts ++ [A])) := by
    rw [total_dist_cl_eq_sum, el_lengths_cl_cons, List.sum_cons]
    linarith
  have hceil : 0 < ⌈total_dist_cl (A :: B :: (ts ++ [A])) / stepsize_prep⌉ :=
    Int.ceil_pos.mpr (div_pos hT hs)
  have hn2 : 2 ≤ no_points_interp_cl (A :: B :: (ts ++ [A])) stepsize_prep := by
    simp only [no_points_interp_cl]
    omega
  refine ⟨?_, ?_, ?_, ?_⟩
  · rw [track_interp_cl_length]
    simp only [no_points_interp_cl]
  · intro i hi
    simp only [dists_interp_cl]
    rw [linspace_getD _ _ _ i hi]
    ring
  · intro i hi
    exact track_interp_cl_getD _ _ i hi
  · rw [track_interp_cl_getD _ _ 0 (by omega), track_interp_cl_getD _ _ _ (by omega)]
    have hD0 : (dists_interp_cl (A :: B :: (ts ++ [A])) stepsize_prep).getD 0 0 = 0 := by
      simp only [dists_interp_cl]
      rw [linspace_getD _ _ _ 0 (by omega)]
      simp
    have hcast : ((no_points_interp_cl (A :: B :: (ts ++ [A])) stepsize_prep - 1 : ℕ) : ℝ)
        = (no_points_interp_cl (A :: B :: (ts ++ [A])) stepsize_prep : ℝ) - 1 := by
      have h1 : (1 : ℕ) ≤ no_points_interp_cl (A :: B :: (ts ++ [A])) stepsize_prep := by
        omega
      push_cast [h1]
      ring
    have hden : ((no_points_interp_cl (A :: B :: (ts ++ [A])) stepsize_prep : ℝ) - 1) ≠ 0 := by
      have : (2 : ℝ) ≤ (no_points_interp_cl (A :: B :: (ts ++ [A])) stepsize_prep : ℝ) := by
        exact_mod_cast hn2
      linarith
    have hDlast : (dists_interp_cl (A :: B :: (ts ++ [A])) stepsize_prep).getD
        (no_points_interp_cl (A :: B :: (ts ++ [A])) stepsize_prep - 1) 0
          = total_dist_cl (A :: B :: (ts ++ [A])) := by
      simp only [dists_interp_cl]
      rw [linspace_getD _ _ _ _ (by omega), hcast]
      field_simp
    rw [hD0, hDlast]
    have hlast_ch : ∀ ch : TrackPoint → ℝ,
        ((A :: B :: (ts ++ [A])).map ch).getLastD 0 = ch A := by
      intro ch
      simp only [List.map_cons, List.map_append, List.map_nil]
      rw [List.getLastD_cons, List.getLastD_cons]
      exact List.getLastD_concat _ _ _
    have hne : (A :: B :: (ts ++ [A])) ≠ [] := by simp
    rw [np_interp_cum_zero A B _ TrackPoint.x h0, np_interp_cum_zero A B _ TrackPoint.y h0,
      np_interp_cum_zero A B _ TrackPoint.w_tr_right h0,
      np_interp_cum_zero A B _ TrackPoint.w_tr_left h0,
      np_interp_cum_last _ TrackPoint.x hne, np_interp_cum_last _ TrackPoint.y hne,
      np_interp_cum_last _ TrackPoint.w_tr_right hne,
      np_interp_cum_last _ TrackPoint.w_tr_left hne,
      hlast_ch, hlast_ch, hlast_ch, hlast_ch]

/-- C2 witness at the concrete track `wtrack` (first segment has length 5)
with `stepsize_prep = 1`. -/
theorem C2_prep_resampling_witness :
    (track_interp_cl (track_cl wtrack) 1).length
      = (⌈total_dist_cl (track_cl wtrack) / 1⌉).toNat + 1
    ∧ (∀ i, i < no_points_interp_cl (track_cl wtrack) 1 →
        (dists_interp_cl (track_cl wtrack) 1).getD i 0
          = total_dist_cl (track_cl wtrack) * i
            / ((no_points_interp_cl (track_cl wtrack) 1 : ℝ) - 1))
    ∧ (∀ i, i < no_points_interp_cl (track_cl wtrack) 1 →
        (track_interp_cl (track_cl wtrack) 1).getD i default
          = ⟨np_interp ((dists_interp_cl (track_cl wtrack) 1).getD i 0)
               (dists_cum_cl (track_cl wtrack)) ((track_cl wtrack).map TrackPoint.x),
             np_interp ((dists_interp_cl (track_cl wtrack) 1).getD i 0)
               (dists_cum_cl (track_cl wtrack)) ((track_cl wtrack).map TrackPoint.y),
             np_interp ((dists_interp_cl (track_cl wtrack) 1).getD i 0)
               (dists_cum_cl (track_cl wtrack)) ((track_cl wtrack).map TrackPoint.w_tr_right),
             np_interp ((dists_interp_cl (track_cl wtrack) 1).getD i 0)
               (dists_cum_cl (track_cl wtrack)) ((track_cl wtrack).map TrackPoint.w_tr_left)⟩)
    ∧ (track_interp_cl (track_cl wtrack) 1).getD 0 default
        = (track_interp_cl (track_cl wtrack) 1).getD
            (no_points_interp_cl (track_cl wtrack) 1 - 1) default :=
  C2_prep_resampling wtrack 1 (by decide) zero_lt_one
    (by
      have htr : track_cl wtrack
          = (⟨0, 0, 1, 1⟩ : TrackPoint) :: (⟨3, 4, 2, 2⟩ : TrackPoint)
            :: [(⟨0, 0, 1, 1⟩ : TrackPoint)] := by
        simp [wtrack, track_cl]
      rw [htr, el_lengths_cl_cons, List.getD_cons_zero]
      simp only [euclDist, posXY]
      apply Real.sqrt_pos.mpr
      norm_num)

/-- C8 counterexample: the pre-smoothing resampling stage (lines 39-59)
contains no operation that raises on coincident consecutive points — there
is no division by the element lengths there, and `np.interp` does not
validate its abscissae — so on the concrete duplicate-point track it
returns an ordinary resampled track instead of raising. -/
theorem C8_counterexample :
    posXY (dupTrack.getD 0 default) = posXY (dupTrack.getD 1 default)
    ∧ track_interp_cl (track_cl dupTrack) 1 = [⟨0, 0, 1, 2⟩] := by
  constructor
  · rfl
  · have hel : euclDist (posXY (⟨0, 0, 1, 2⟩ : TrackPoint))
        (posXY (⟨0, 0, 1, 2⟩ : TrackPoint)) = 0 := by
      norm_num [euclDist, posXY, Real.sqrt_zero]
    simp [dupTrack, track_cl, track_interp_cl, dists_interp_cl, no_points_interp_cl,
      total_dist_cl, dists_cum_cl, el_lengths_cl, hel, linspace, List.scanl,
      np_interp, np_interp_go]

/-- C8 amended: the resampling stage does not raise on a closed input
track with two consecutive coincident points; it still produces the usual
`ceil(perimeter / s) + 1`-point resampled track. -/
theorem C8_amended (track : List TrackPoint) (stepsize_prep : ℝ)
    (hs : 0 < stepsize_prep)
    (hdup : ∃ i, i + 1 < (track_cl track).length ∧
      posXY ((track_cl track).getD i default)
        = posXY ((track_cl track).getD (i + 1) default)) :
    (track_interp_cl (track_cl track) stepsize_prep).length
      = (⌈total_dist_cl (track_cl track) / stepsize_prep⌉).toNat + 1 := by
  rw [track_interp_cl_length]
  simp only [no_points_interp_cl]

/-- C8 amended-claim witness at the concrete duplicate-point track. -/
theorem C8_amended_witness :
    (track_interp_cl (track_cl dupTrack) 1).length
      = (⌈total_dist_cl (track_cl dupTrack) / 1⌉).toNat + 1 :=
  C8_amended dupTrack 1 zero_lt_one ⟨0, by decide, rfl⟩

end

end TPH
